import Mathlib

/-!
Shallow embedding of the mukti redirect enumeration and wildcard-compression
engine (`src/mukti-bin/src/redirects.rs`).

Strings are modelled as `List Char` (Rust `String`/`&str`; UTF-8 byte order
coincides with codepoint order, so lexicographic comparison agrees).
The `semver::Version` and `VersionRange` payloads are external to the
repository; following the spec ("comparison must be consistent and total
(e.g., lexicographic fallback)") they are modelled as rendered strings with
lexicographic order.
-/

abbrev Str := List Char

/-- `RedirectVersion` from redirects.rs: `Latest | Range(VersionRange) | Version(Version)`.
Payloads are modelled as their rendered text. Derived `Ord` in Rust orders by
constructor first (`Latest < Range < Version`), then payload. -/
inductive RedirectVersion where
  | latest
  | range (r : Str)
  | version (v : Str)
deriving DecidableEq

/-- `RedirectKind` from redirects.rs; the declaration order `Release, Location,
Alias` determines the derived sort order. -/
inductive RedirectKind where
  | release
  | location
  | alias
deriving DecidableEq

/-- `Redirect` from redirects.rs. -/
structure Redirect where
  version : RedirectVersion
  kind : RedirectKind
  «from» : Str
  «to» : Str
  code : Nat
deriving DecidableEq

/-- `impl fmt::Display for RedirectVersion`. -/
def RedirectVersion.toStr : RedirectVersion → Str
  | .latest => "latest".toList
  | .range r => r
  | .version v => v

/-- Discriminant of the `RedirectVersion` constructor, matching the derived
`Ord`'s constructor order. -/
def RedirectVersion.ctorIdx : RedirectVersion → Nat
  | .latest => 0
  | .range _ => 1
  | .version _ => 2

/-- Payload of a `RedirectVersion` (empty for `Latest`). -/
def RedirectVersion.payload : RedirectVersion → Str
  | .latest => []
  | .range r => r
  | .version v => v

/-- Sort key realising the derived `Ord` on `RedirectVersion`. -/
def RedirectVersion.sortKey (v : RedirectVersion) : Nat ×ₗ Str :=
  toLex (v.ctorIdx, v.payload)

/-- Discriminant of `RedirectKind`, matching `Release < Location < Alias`. -/
def RedirectKind.ctorIdx : RedirectKind → Nat
  | .release => 0
  | .location => 1
  | .alias => 2

/-- Sort key realising the derived `Ord` on `Redirect`: lexicographic on
`(version, kind, from, to, code)`. -/
def Redirect.sortKey (r : Redirect) : (Nat ×ₗ Str) ×ₗ Nat ×ₗ Str ×ₗ Str ×ₗ Nat :=
  toLex (r.version.sortKey, toLex (r.kind.ctorIdx, toLex (r.«from», toLex (r.«to», r.code))))

theorem RedirectVersion.sortKey_injective : Function.Injective RedirectVersion.sortKey := by
  intro a b h
  cases a <;> cases b <;>
    simp_all [RedirectVersion.sortKey, RedirectVersion.ctorIdx, RedirectVersion.payload,
      Prod.ext_iff]

theorem RedirectKind.ctorIdx_injective : Function.Injective RedirectKind.ctorIdx := by
  intro a b h
  cases a <;> cases b <;> simp_all [RedirectKind.ctorIdx]

theorem Redirect.sortKey_inj : Function.Injective Redirect.sortKey := by
  intro a b h
  obtain ⟨va, ka, fa, ta, ca⟩ := a
  obtain ⟨vb, kb, fb, tb, cb⟩ := b
  simp only [Redirect.sortKey, toLex_inj, Prod.mk.injEq] at h
  obtain ⟨h1, h2, h3, h4, h5⟩ := h
  simp only [Redirect.mk.injEq]
  exact ⟨RedirectVersion.sortKey_injective h1, RedirectKind.ctorIdx_injective h2, h3, h4, h5⟩

instance : LinearOrder Redirect :=
  LinearOrder.lift' Redirect.sortKey Redirect.sortKey_inj

/-- Rust `str::split_once(pat)`: split around the first occurrence of `pat`,
returning `none` when `pat` does not occur. -/
def splitOnce (pat : Str) : Str → Option (Str × Str)
  | [] => if pat.isEmpty then some ([], []) else none
  | c :: cs =>
    if pat.isPrefixOf (c :: cs) then some ([], (c :: cs).drop pat.length)
    else
      match splitOnce pat cs with
      | some (a, b) => some (c :: a, b)
      | none => none

theorem splitOnce_append {pat s a b : Str} (h : splitOnce pat s = some (a, b)) :
    a ++ pat ++ b = s := by
  induction s generalizing a b with
  | nil =>
    simp only [splitOnce] at h
    split at h
    · rename_i hp
      simp only [List.isEmpty_iff] at hp
      simp_all
    · simp at h
  | cons c cs ih =>
    simp only [splitOnce] at h
    split at h
    · rename_i hp
      obtain ⟨t, ht⟩ := List.isPrefixOf_iff_prefix.mp hp
      simp only [Option.some.injEq, Prod.mk.injEq] at h
      obtain ⟨ha, hb⟩ := h
      subst ha
      rw [← hb, ← ht, List.drop_left]
      simp
    · rename_i hp
      revert h
      cases hsp : splitOnce pat cs with
      | none => simp
      | some ab =>
        obtain ⟨a', b'⟩ := ab
        intro h
        simp only [Option.some.injEq, Prod.mk.injEq] at h
        obtain ⟨ha, hb⟩ := h
        subst hb
        rw [← ha]
        simpa using ih hsp

/-- Rust `Vec::join(sep)` on string fragments. -/
def joinWith (sep : Str) : List Str → Str
  | [] => []
  | [x] => x
  | x :: y :: t => x ++ sep ++ joinWith sep (y :: t)

/-- Structural core of `splitAll`: `fuel` bounds the recursion depth. Rust's
`str::split` loop shrinks the remaining suffix by at least the pattern length
every step, so `s.length` fuel is always enough (`splitAll_eq_some`). -/
def splitAllFuel (pat : Str) : Nat → Str → List Str
  | 0, s => [s]
  | Nat.succ fuel, s =>
    match splitOnce pat s with
    | none => [s]
    | some (a, b) => a :: splitAllFuel pat fuel b

/-- Rust `str::split(pat)` collecting every fragment, via repeated
`split_once`. The program only ever splits on a rendered semver version,
which is never empty; the empty-pattern guard returning `[s]` marks that
unreachable case (Rust's empty-pattern semantics differ but cannot arise). -/
def splitAll (pat : Str) (s : Str) : List Str :=
  if pat = [] then [s] else splitAllFuel pat s.length s

theorem splitOnce_nil {pat : Str} (hp : pat ≠ []) : splitOnce pat [] = none := by
  simp [splitOnce, hp]

theorem splitAll_pat_nil (s : Str) : splitAll [] s = [s] := by
  simp [splitAll]

theorem splitAllFuel_ne_nil (pat : Str) (fuel : Nat) (s : Str) :
    splitAllFuel pat fuel s ≠ [] := by
  cases fuel with
  | zero => simp [splitAllFuel]
  | succ n =>
    simp only [splitAllFuel]
    split <;> simp

theorem splitAll_ne_nil (pat s : Str) : splitAll pat s ≠ [] := by
  rw [splitAll]
  split
  · simp
  · exact splitAllFuel_ne_nil pat s.length s

theorem splitOnce_some_length {pat s a b : Str} (hp : pat ≠ [])
    (hsp : splitOnce pat s = some (a, b)) : b.length < s.length := by
  have hlen := congrArg List.length (splitOnce_append hsp)
  simp only [List.length_append] at hlen
  have hp' : 0 < pat.length := List.length_pos.mpr hp
  omega

theorem splitAllFuel_congr {pat : Str} (hp : pat ≠ []) :
    ∀ f₁ : Nat, ∀ {f₂ : Nat} {s : Str}, s.length ≤ f₁ → s.length ≤ f₂ →
      splitAllFuel pat f₁ s = splitAllFuel pat f₂ s := by
  intro f₁
  induction f₁ with
  | zero =>
    intro f₂ s h1 h2
    have hs : s = [] := List.length_eq_zero.mp (Nat.le_zero.mp h1)
    subst hs
    cases f₂ with
    | zero => rfl
    | succ m => simp [splitAllFuel, splitOnce_nil hp]
  | succ n ih =>
    intro f₂ s h1 h2
    cases f₂ with
    | zero =>
      have hs : s = [] := List.length_eq_zero.mp (Nat.le_zero.mp h2)
      subst hs
      simp [splitAllFuel, splitOnce_nil hp]
    | succ m =>
      simp only [splitAllFuel]
      cases hsp : splitOnce pat s with
      | none => rfl
      | some ab =>
        obtain ⟨a, b⟩ := ab
        have hb := splitOnce_some_length hp hsp
        exact congrArg (a :: ·) (ih (Nat.le_of_lt_succ (Nat.lt_of_lt_of_le hb h1))
          (Nat.le_of_lt_succ (Nat.lt_of_lt_of_le hb h2)))

theorem splitAll_eq_none {pat s : Str} (hsp : splitOnce pat s = none) :
    splitAll pat s = [s] := by
  rw [splitAll]
  split
  · rfl
  · cases hl : s.length with
    | zero => rfl
    | succ n => simp [splitAllFuel, hsp]

theorem splitAll_eq_some {pat s a b : Str} (hp : pat ≠ [])
    (hsp : splitOnce pat s = some (a, b)) : splitAll pat s = a :: splitAll pat b := by
  have hb := splitOnce_some_length hp hsp
  rw [splitAll, splitAll, if_neg hp, if_neg hp]
  cases hl : s.length with
  | zero =>
    rw [hl] at hb
    exact absurd hb (Nat.not_lt_zero _)
  | succ n =>
    simp only [splitAllFuel, hsp]
    refine congrArg (a :: ·) (splitAllFuel_congr hp n ?_ (Nat.le_refl _))
    rw [hl] at hb
    exact Nat.le_of_lt_succ hb

theorem joinWith_splitAll_aux {pat : Str} (hp : pat ≠ []) :
    ∀ n : Nat, ∀ s : Str, s.length ≤ n → joinWith pat (splitAll pat s) = s := by
  intro n
  induction n with
  | zero =>
    intro s hs
    have h0 : s = [] := List.length_eq_zero.mp (Nat.le_zero.mp hs)
    subst h0
    rw [splitAll_eq_none (splitOnce_nil hp)]
    rfl
  | succ n ih =>
    intro s hs
    cases hsp : splitOnce pat s with
    | none => rw [splitAll_eq_none hsp]; rfl
    | some ab =>
      obtain ⟨a, b⟩ := ab
      rw [splitAll_eq_some hp hsp]
      have hb := splitOnce_some_length hp hsp
      have ihb := ih b (by omega)
      have hne := splitAll_ne_nil pat b
      cases hab : splitAll pat b with
      | nil => exact absurd hab hne
      | cons x xs =>
        rw [hab] at ihb
        calc joinWith pat (a :: x :: xs) = a ++ pat ++ joinWith pat (x :: xs) := rfl
          _ = a ++ pat ++ b := by rw [ihb]
          _ = s := splitOnce_append hsp

theorem joinWith_splitAll (pat s : Str) : joinWith pat (splitAll pat s) = s := by
  by_cases hp : pat = []
  · subst hp
    rw [splitAll_pat_nil]
    rfl
  · exact joinWith_splitAll_aux hp s.length s (Nat.le_refl _)

/-- Key of the outer grouping map: `(from_start, from_end)`. -/
abbrev GroupKey := Str × Str

/-- Key of the inner grouping map: `(kind, to_components)`. -/
abbrev SubKey := RedirectKind × List Str

/-- One entry of the inner map: key plus the pushed redirects in push order. -/
abbrev SubGroup := SubKey × List Redirect

/-- One entry of the outer map. The Rust code uses
`HashMap<(from_start, from_end), HashMap<(kind, to_components), Vec<&Redirect>>>`;
the map CONTENT is modelled as an association list in first-insertion order,
while the unspecified hash-map iteration order is modelled separately (see
`Arranged`). -/
abbrev FromGroup := GroupKey × List SubGroup

instance : DecidableEq FromGroup :=
  @instDecidableEqProd GroupKey (List SubGroup) inferInstance inferInstance

/-- `url_matches.entry(fk).or_default().entry(k).or_default().push(r)`, inner level. -/
def insertSub (k : SubKey) (r : Redirect) : List SubGroup → List SubGroup
  | [] => [(k, [r])]
  | (k', rs) :: t => if k' = k then (k', rs ++ [r]) :: t else (k', rs) :: insertSub k r t

/-- `url_matches.entry(fk).or_default().entry(k).or_default().push(r)`, outer level. -/
def insertCandidate (fk : GroupKey) (k : SubKey) (r : Redirect) : List FromGroup → List FromGroup
  | [] => [(fk, [(k, [r])])]
  | (fk', sgs) :: t =>
    if fk' = fk then (fk', insertSub k r sgs) :: t else (fk', sgs) :: insertCandidate fk k r t

/-- The eligibility filter and split of `WildcardStore::build`'s first loop:
`none` when the redirect goes straight to `unmatched` (not a `Version`, or the
version text does not occur in `from`); otherwise the grouping keys. -/
def classifyRedirect (r : Redirect) : Option (GroupKey × SubKey) :=
  match r.version with
  | .version _ =>
    let vs := r.version.toStr
    match splitOnce vs r.«from» with
    | none => none
    | some fk => some (fk, (r.kind, splitAll vs r.«to»))
  | _ => none

/-- One iteration of the first loop of `WildcardStore::build`. -/
def groupStep (acc : List FromGroup × List Redirect) (r : Redirect) : List FromGroup × List Redirect :=
  match classifyRedirect r with
  | none => (acc.1, acc.2 ++ [r])
  | some (fk, k) => (insertCandidate fk k r acc.1, acc.2)

/-- The first loop of `WildcardStore::build`: build `url_matches` (content, in
first-insertion order) and the initial `unmatched` vector. -/
def groupCandidates (redirects : List Redirect) : List FromGroup × List Redirect :=
  redirects.foldl groupStep ([], [])

/-- The `best_to` selection loop of `WildcardStore::build`: first sub-group
seen, replaced only when a later one is strictly larger
(`redirects.len() > best_redirects.len()`). -/
def bestStep (best : Option SubGroup) (sg : SubGroup) : Option SubGroup :=
  match best with
  | none => some sg
  | some b => if b.2.length < sg.2.length then some sg else some b

def selectBest (sgs : List SubGroup) : Option SubGroup :=
  sgs.foldl bestStep none

/-- `to_maps.remove(&ktc)`: remove the entry with the given key. -/
def removeKey (k : SubKey) : List SubGroup → List SubGroup
  | [] => []
  | sg :: t => if sg.1 = k then t else sg :: removeKey k t

/-- `Wildcard` from redirects.rs (owned copies of the borrowed slices). -/
structure Wildcard where
  kind : RedirectKind
  from_components : GroupKey
  to_components : List Str
  matching_redirects : List Redirect
deriving DecidableEq

/-- The wildcard emitted for one outer-map entry, if any. -/
def groupWildcard (g : FromGroup) : Option Wildcard :=
  (selectBest g.2).map fun sg => ⟨sg.1.1, g.1, sg.1.2, sg.2⟩

/-- The redirects of the non-winning sub-groups of one outer-map entry, which
the second loop of `WildcardStore::build` appends to `unmatched`. -/
def groupLeftover (g : FromGroup) : List Redirect :=
  match selectBest g.2 with
  | none => g.2.flatMap (·.2)
  | some sg => (removeKey sg.1 g.2).flatMap (·.2)

/-- Sort key of `wildcards.sort_unstable_by_key(|w| (w.kind, w.from_components))`. -/
def Wildcard.sortKey (w : Wildcard) : Nat ×ₗ Str ×ₗ Str :=
  toLex (w.kind.ctorIdx, toLex w.from_components)

def wildcardKeyLe (a b : Wildcard) : Prop := a.sortKey ≤ b.sortKey

instance : DecidableRel wildcardKeyLe := fun a b =>
  inferInstanceAs (Decidable (a.sortKey ≤ b.sortKey))

/-- `WildcardStore` from redirects.rs. -/
structure WildcardStore where
  wildcards : List Wildcard
  unmatched : List Redirect
deriving DecidableEq

/-- The second half of `WildcardStore::build`, consuming the grouped
candidates in the order given by `gs` (the hash-map iteration order) together
with the initial `unmatched` vector, then sorting both outputs. Rust's stable
`sort`/`sort_unstable_by_key` are modelled by insertion sort. -/
def buildFromGroups (gs : List FromGroup) (um0 : List Redirect) : WildcardStore where
  wildcards := List.insertionSort wildcardKeyLe (gs.filterMap groupWildcard)
  unmatched := List.insertionSort (· ≤ ·) (um0 ++ gs.flatMap groupLeftover)

/-- `WildcardStore::build`, with the canonical (first-insertion) iteration
order of the grouping maps. -/
def WildcardStore.build (redirects : List Redirect) : WildcardStore :=
  buildFromGroups (groupCandidates redirects).1 (groupCandidates redirects).2

/-- `Wildcard::VERSION_PLACEHOLDER`. -/
def VERSION_PLACEHOLDER : Str := ":version".toList

/-- `impl fmt::Display for Redirect`: `"{from} {to} {code}"`. -/
def Redirect.display (r : Redirect) : Str :=
  r.«from» ++ " ".toList ++ r.«to» ++ " ".toList ++ Nat.toDigits 10 r.code

/-- `impl fmt::Display for Wildcard`:
`"{from_start}:version{from_end} {to_components joined by :version} 302"`. -/
def Wildcard.display (w : Wildcard) : Str :=
  w.from_components.1 ++ VERSION_PLACEHOLDER ++ w.from_components.2 ++ " ".toList ++
    joinWith VERSION_PLACEHOLDER w.to_components ++ " 302".toList

/-- `ReleaseLocation` (mukti-metadata). Modelled from the spec: "Location —
external input: { target, format, url }, one per build artifact of a version." -/
structure ReleaseLocation where
  target : Str
  format : Str
  url : Str
deriving DecidableEq

/-- `ReleaseVersionData` (mukti-metadata). Modelled from the spec: canonical
release URL plus the list of locations of one version. -/
structure ReleaseVersionData where
  release_url : Str
  locations : List ReleaseLocation
deriving DecidableEq

/-- The `target_format` field of a CLI `Alias` (crate::command). -/
structure TargetFormat where
  target : Str
  format : Str
deriving DecidableEq

/-- `Alias` (crate::command). Modelled from the spec: "Alias — external input:
{ target_format: (target, format), alias: string }". -/
structure Alias where
  target_format : TargetFormat
  «alias» : Str
deriving DecidableEq

/-- One `VersionRange` entry of a project (mukti-metadata). Modelled from the
spec: "map of range id → { is_prerelease: bool, latest: version id, map of
version id → { release_url, list of locations } }"; the maps are association
lists iterated in list order. -/
structure RangeData where
  is_prerelease : Bool
  latest : Str
  versions : List (Str × ReleaseVersionData)
deriving DecidableEq

/-- One project of `MuktiReleasesJson` (mukti-metadata). Modelled from the
spec: "project name → { optional latest range id, map of range id → … }". -/
structure Project where
  latest : Option Str
  ranges : List (Str × RangeData)
deriving DecidableEq

/-- `MuktiReleasesJson` (mukti-metadata): the named projects. -/
structure MuktiReleasesJson where
  projects : List (Str × Project)
deriving DecidableEq

/-- Rust's panicking map index `ranges[range]`, total here via a default (the
program only indexes keys it knows to be present). -/
def Project.rangeData (p : Project) (range : Str) : RangeData :=
  (p.ranges.lookup range).getD ⟨false, [], []⟩

/-- Rust's panicking map index `versions[&latest]`, total here via a default. -/
def RangeData.versionData (d : RangeData) (v : Str) : ReleaseVersionData :=
  (d.versions.lookup v).getD ⟨[], []⟩

/-- `append_redirect_list` from redirects.rs: push the `Release` redirect, then
per location the `Location` redirect followed by one `Alias` redirect per alias
whose target and format equal the location's. -/
def appendRedirectList (version : RedirectVersion) (version_data : ReleaseVersionData)
    (aliases : List Alias) (pre : Str) (out : List Redirect) : List Redirect :=
  let out := out ++ [⟨version, .release,
    pre ++ "/".toList ++ version.toStr ++ "/release".toList, version_data.release_url, 302⟩]
  version_data.locations.foldl
    (fun out location =>
      let out := out ++ [⟨version, .location,
        pre ++ "/".toList ++ version.toStr ++ "/".toList ++ location.target ++ ".".toList ++
          location.format,
        location.url, 302⟩]
      ((aliases.filter fun al =>
            al.target_format.target == location.target &&
              al.target_format.format == location.format).foldl
        (fun out al => out ++ [⟨version, .alias,
          pre ++ "/".toList ++ version.toStr ++ "/".toList ++ al.«alias», location.url, 302⟩])
        out))
    out

/-- The redirect-list construction of `generate_redirects`: the `latest` block,
then per range the non-prerelease range block followed by every version block. -/
def projectRedirects (project : Project) (aliases : List Alias) (pre : Str) : List Redirect :=
  let base :=
    match project.latest with
    | some range =>
      let latest_range_data := project.rangeData range
      appendRedirectList .latest (latest_range_data.versionData latest_range_data.latest)
        aliases pre []
    | none => []
  project.ranges.foldl
    (fun out rd =>
      let out :=
        if rd.2.is_prerelease then out
        else appendRedirectList (.range rd.1) (rd.2.versionData rd.2.latest) aliases pre out
      rd.2.versions.foldl (fun out vv => appendRedirectList (.version vv.1) vv.2 aliases pre out)
        out)
    base

/-- `RedirectFlavor` from redirects.rs. -/
inductive RedirectFlavor where
  | netlify
  | cloudflare
deriving DecidableEq

/-- The derived `Debug` rendering of `RedirectFlavor`. -/
def RedirectFlavor.debugStr : RedirectFlavor → Str
  | .netlify => "Netlify".toList
  | .cloudflare => "Cloudflare".toList

/-- Rust `str::trim_end_matches('/')`. -/
def trimEndSlashes (s : Str) : Str :=
  (s.reverse.dropWhile (· == '/')).reverse

/-- The `writeln!(out, "{}", x)` loops: append each line plus a newline. -/
def writeLines (out : Str) (lines : List Str) : Str :=
  lines.foldl (fun acc l => acc ++ l ++ ['\n']) out

/-- The output header written by `generate_redirects`
(`"# Generated by mukti with redirect flavor {:?}\n"` plus `writeln!`'s newline). -/
def headerFor (flavor : RedirectFlavor) : Str :=
  "# Generated by mukti with redirect flavor ".toList ++ flavor.debugStr ++ ['\n', '\n']

/-- The text `generate_redirects` writes to `_redirects` (the pure part of the
function, after the single-project check and before the atomic file write). -/
def generateOutput (project : Project) (aliases : List Alias) (flavor : RedirectFlavor)
    (pre : Str) : Str :=
  let np := trimEndSlashes pre
  let redirects := projectRedirects project aliases np
  match flavor with
  | .netlify => writeLines (headerFor flavor) (redirects.map Redirect.display)
  | .cloudflare =>
    let store := WildcardStore.build redirects
    writeLines (writeLines (headerFor flavor) (store.unmatched.map Redirect.display))
      (store.wildcards.map Wildcard.display)

/-- `generate_redirects` from redirects.rs: fail unless exactly one project is
present, otherwise produce the output text (file I/O is outside the model). -/
def generateRedirects (release_json : MuktiReleasesJson) (aliases : List Alias)
    (flavor : RedirectFlavor) (pre : Str) : Except Str Str :=
  match release_json.projects with
  | [(_, project)] => .ok (generateOutput project aliases flavor pre)
  | _ => .error ("mukti-bin currently only supports one project".toList)

/-! Invariants of the grouping and selection machinery. -/

/-- All redirects stored in a list of sub-groups, in order. -/
def subRedirects (sgs : List SubGroup) : List Redirect :=
  sgs.flatMap (·.2)

/-- All redirects stored in a list of groups, in order. -/
def groupRedirects (gs : List FromGroup) : List Redirect :=
  gs.flatMap (fun g => subRedirects g.2)

theorem foldl_bestStep_some (sgs : List SubGroup) (b : SubGroup) :
    ∃ c, sgs.foldl bestStep (some b) = some c ∧ (c = b ∨ c ∈ sgs) ∧
      b.2.length ≤ c.2.length ∧ ∀ x ∈ sgs, x.2.length ≤ c.2.length := by
  induction sgs generalizing b with
  | nil => exact ⟨b, rfl, Or.inl rfl, Nat.le_refl _, by simp⟩
  | cons sg t ih =>
    have hstep : bestStep (some b) sg = some (if b.2.length < sg.2.length then sg else b) := by
      simp only [bestStep]
      split <;> simp_all
    by_cases hlt : b.2.length < sg.2.length
    · obtain ⟨c, hc, hmem, hle, hall⟩ := ih sg
      refine ⟨c, ?_, ?_, ?_, ?_⟩
      · simpa [List.foldl_cons, hstep, if_pos hlt] using hc
      · rcases hmem with h | h
        · exact Or.inr (h ▸ List.mem_cons_self sg t)
        · exact Or.inr (List.mem_cons_of_mem _ h)
      · exact Nat.le_trans (Nat.le_of_lt hlt) hle
      · intro x hx
        rcases List.mem_cons.mp hx with h | h
        · exact h ▸ hle
        · exact hall x h
    · obtain ⟨c, hc, hmem, hle, hall⟩ := ih b
      refine ⟨c, ?_, ?_, ?_, ?_⟩
      · simpa [List.foldl_cons, hstep, if_neg hlt] using hc
      · rcases hmem with h | h
        · exact Or.inl h
        · exact Or.inr (List.mem_cons_of_mem _ h)
      · exact hle
      · intro x hx
        rcases List.mem_cons.mp hx with h | h
        · exact h ▸ Nat.le_trans (Nat.le_of_not_lt hlt) hle
        · exact hall x h

theorem selectBest_nil : selectBest [] = none := rfl

theorem selectBest_cons_spec (sg : SubGroup) (t : List SubGroup) :
    ∃ c, selectBest (sg :: t) = some c ∧ c ∈ sg :: t ∧
      ∀ x ∈ sg :: t, x.2.length ≤ c.2.length := by
  obtain ⟨c, hc, hmem, hle, hall⟩ := foldl_bestStep_some t sg
  refine ⟨c, ?_, ?_, ?_⟩
  · simpa [selectBest, List.foldl_cons, bestStep] using hc
  · rcases hmem with h | h
    · exact h ▸ List.mem_cons_self sg t
    · exact List.mem_cons_of_mem _ h
  · intro x hx
    rcases List.mem_cons.mp hx with h | h
    · exact h ▸ hle
    · exact hall x h

theorem selectBest_eq_none_iff (sgs : List SubGroup) : selectBest sgs = none ↔ sgs = [] := by
  cases sgs with
  | nil => simp [selectBest_nil]
  | cons sg t =>
    obtain ⟨c, hc, _, _⟩ := selectBest_cons_spec sg t
    simp [hc]

theorem selectBest_mem {sgs : List SubGroup} {c : SubGroup} (h : selectBest sgs = some c) :
    c ∈ sgs := by
  cases sgs with
  | nil => simp [selectBest_nil] at h
  | cons sg t =>
    obtain ⟨c', hc', hmem, _⟩ := selectBest_cons_spec sg t
    rw [hc'] at h
    exact (Option.some.injEq _ _ ▸ h) ▸ hmem

theorem selectBest_max {sgs : List SubGroup} {c : SubGroup} (h : selectBest sgs = some c) :
    ∀ x ∈ sgs, x.2.length ≤ c.2.length := by
  cases sgs with
  | nil => simp [selectBest_nil] at h
  | cons sg t =>
    obtain ⟨c', hc', _, hall⟩ := selectBest_cons_spec sg t
    rw [hc'] at h
    exact (Option.some.injEq _ _ ▸ h) ▸ hall

/-- With a strictly dominant winner, `selectBest` is invariant under
permutation of the sub-group list (hash-map iteration order). -/
theorem selectBest_perm_eq {sgs sgs' : List SubGroup} {c : SubGroup}
    (hp : sgs.Perm sgs') (h : selectBest sgs = some c)
    (hdom : ∀ x ∈ sgs, x ≠ c → x.2.length < c.2.length) :
    selectBest sgs' = some c := by
  have hcmem : c ∈ sgs := selectBest_mem h
  have hne : sgs' ≠ [] := by
    intro hn
    rw [hn] at hp
    rw [hp.eq_nil] at hcmem
    simp at hcmem
  cases hsel : selectBest sgs' with
  | none => exact absurd ((selectBest_eq_none_iff _).mp hsel) hne
  | some c' =>
    have hc'mem : c' ∈ sgs := hp.mem_iff.mpr (selectBest_mem hsel)
    have h1 : c'.2.length ≤ c.2.length := selectBest_max h _ hc'mem
    have h2 : c.2.length ≤ c'.2.length :=
      selectBest_max hsel _ (hp.mem_iff.mp hcmem)
    by_cases hcc : c' = c
    · rw [hcc]
    · exact absurd h2 (Nat.not_le.mpr (hdom c' hc'mem hcc))

theorem removeKey_perm {sgs : List SubGroup} {sg : SubGroup} (hmem : sg ∈ sgs)
    (hnd : (sgs.map (·.1)).Nodup) : sgs.Perm (sg :: removeKey sg.1 sgs) := by
  induction sgs with
  | nil => simp at hmem
  | cons x t ih =>
    simp only [List.map_cons, List.nodup_cons] at hnd
    obtain ⟨hx, hndt⟩ := hnd
    by_cases hk : x.1 = sg.1
    · have hxs : x = sg := by
        rcases List.mem_cons.mp hmem with h | h
        · exact h.symm
        · exact absurd (hk ▸ List.mem_map_of_mem (·.1) h) hx
      subst hxs
      simp [removeKey, hk]
    · have hsgt : sg ∈ t := by
        rcases List.mem_cons.mp hmem with h | h
        · exact absurd (h ▸ rfl) (Ne.symm hk)
        · exact h
      have hrk : removeKey sg.1 (x :: t) = x :: removeKey sg.1 t := by
        simp [removeKey, hk]
      rw [hrk]
      exact ((ih hsgt hndt).cons x).trans (List.Perm.swap sg x _)

theorem subRedirects_cons (sg : SubGroup) (t : List SubGroup) :
    subRedirects (sg :: t) = sg.2 ++ subRedirects t := by
  simp [subRedirects]

theorem groupRedirects_cons (g : FromGroup) (t : List FromGroup) :
    groupRedirects (g :: t) = subRedirects g.2 ++ groupRedirects t := by
  simp [groupRedirects, subRedirects]

theorem insertSub_flat_perm (k : SubKey) (r : Redirect) (sgs : List SubGroup) :
    (subRedirects (insertSub k r sgs)).Perm (r :: subRedirects sgs) := by
  induction sgs with
  | nil => simp [insertSub, subRedirects]
  | cons sg t ih =>
    obtain ⟨k', rs⟩ := sg
    by_cases hk : k' = k
    · simp only [insertSub, if_pos hk, subRedirects_cons]
      exact (List.perm_append_singleton r rs).append_right _
    · simp only [insertSub, if_neg hk, subRedirects_cons]
      exact (ih.append_left rs).trans List.perm_middle

theorem insertCandidate_flat_perm (fk : GroupKey) (k : SubKey) (r : Redirect)
    (gs : List FromGroup) :
    (groupRedirects (insertCandidate fk k r gs)).Perm (r :: groupRedirects gs) := by
  induction gs with
  | nil => simp [insertCandidate, groupRedirects, subRedirects, insertSub]
  | cons g t ih =>
    obtain ⟨fk', sgs⟩ := g
    by_cases hk : fk' = fk
    · simp only [insertCandidate, if_pos hk, groupRedirects_cons]
      exact (insertSub_flat_perm k r sgs).append_right _
    · simp only [insertCandidate, if_neg hk, groupRedirects_cons]
      exact (ih.append_left _).trans List.perm_middle

theorem mem_keys_insertSub {x : SubKey} {k : SubKey} {r : Redirect} {sgs : List SubGroup}
    (h : x ∈ (insertSub k r sgs).map (·.1)) : x ∈ sgs.map (·.1) ∨ x = k := by
  induction sgs with
  | nil => simpa [insertSub] using h
  | cons sg t ih =>
    obtain ⟨k', rs⟩ := sg
    by_cases hk : k' = k
    · simp only [insertSub, if_pos hk] at h
      exact Or.inl (by simpa using h)
    · simp only [insertSub, if_neg hk, List.map_cons, List.mem_cons] at h
      rcases h with h | h
      · exact Or.inl (by simp [h])
      · rcases ih h with h' | h'
        · exact Or.inl (by simp [h'])
        · exact Or.inr h'

theorem mem_keys_insertCandidate {x : GroupKey} {fk : GroupKey} {k : SubKey} {r : Redirect}
    {gs : List FromGroup} (h : x ∈ (insertCandidate fk k r gs).map (·.1)) :
    x ∈ gs.map (·.1) ∨ x = fk := by
  induction gs with
  | nil => simpa [insertCandidate] using h
  | cons g t ih =>
    obtain ⟨fk', sgs⟩ := g
    by_cases hk : fk' = fk
    · simp only [insertCandidate, if_pos hk] at h
      exact Or.inl (by simpa using h)
    · simp only [insertCandidate, if_neg hk, List.map_cons, List.mem_cons] at h
      rcases h with h | h
      · exact Or.inl (by simp [h])
      · rcases ih h with h' | h'
        · exact Or.inl (by simp [h'])
        · exact Or.inr h'

/-- Well-formedness of the inner map content of one group: distinct sub-group
keys, and every stored redirect classifies to its group and sub-group key. -/
def SubGroupsWF (fk : GroupKey) (sgs : List SubGroup) : Prop :=
  (sgs.map (·.1)).Nodup ∧
    ∀ sg ∈ sgs, sg.2 ≠ [] ∧ ∀ r ∈ sg.2, classifyRedirect r = some (fk, sg.1)

/-- Well-formedness of the outer map content. -/
def GroupsWF (gs : List FromGroup) : Prop :=
  (gs.map (·.1)).Nodup ∧ ∀ g ∈ gs, g.2 ≠ [] ∧ SubGroupsWF g.1 g.2

theorem insertSub_WF {fk : GroupKey} {k : SubKey} {r : Redirect} {sgs : List SubGroup}
    (hwf : SubGroupsWF fk sgs) (hr : classifyRedirect r = some (fk, k)) :
    SubGroupsWF fk (insertSub k r sgs) := by
  induction sgs with
  | nil =>
    refine ⟨by simp [insertSub], ?_⟩
    intro sg hsg
    simp only [insertSub, List.mem_singleton] at hsg
    subst hsg
    exact ⟨by simp, by simpa using hr⟩
  | cons x t ih =>
    obtain ⟨hnd, hall⟩ := hwf
    simp only [List.map_cons, List.nodup_cons] at hnd
    obtain ⟨hx, hndt⟩ := hnd
    obtain ⟨k', rs⟩ := x
    by_cases hk : k' = k
    · have hins : insertSub k r ((k', rs) :: t) = (k', rs ++ [r]) :: t := by
        simp [insertSub, hk]
      rw [hins]
      refine ⟨by rw [List.map_cons]; exact List.nodup_cons.mpr ⟨hx, hndt⟩, ?_⟩
      intro sg hsg
      rcases List.mem_cons.mp hsg with h | h
      · subst h
        refine ⟨by simp, ?_⟩
        intro r' hr'
        rcases List.mem_append.mp hr' with h' | h'
        · exact (hall (k', rs) (List.mem_cons_self _ _)).2 r' h'
        · simp only [List.mem_singleton] at h'
          subst h'
          rw [hk]
          exact hr
      · exact hall sg (List.mem_cons_of_mem _ h)
    · have hwft : SubGroupsWF fk t :=
        ⟨hndt, fun sg hsg => hall sg (List.mem_cons_of_mem _ hsg)⟩
      obtain ⟨ihnd, ihall⟩ := ih hwft
      refine ⟨?_, ?_⟩
      · simp only [insertSub, if_neg hk, List.map_cons, List.nodup_cons]
        refine ⟨fun hmem => ?_, ihnd⟩
        rcases mem_keys_insertSub hmem with h | h
        · exact hx h
        · exact hk h
      · intro sg hsg
        simp only [insertSub, if_neg hk, List.mem_cons] at hsg
        rcases hsg with h | h
        · subst h
          exact hall (k', rs) (List.mem_cons_self _ _)
        · exact ihall sg h

theorem insertCandidate_WF {fk : GroupKey} {k : SubKey} {r : Redirect} {gs : List FromGroup}
    (hwf : GroupsWF gs) (hr : classifyRedirect r = some (fk, k)) :
    GroupsWF (insertCandidate fk k r gs) := by
  induction gs with
  | nil =>
    refine ⟨by simp [insertCandidate], ?_⟩
    intro g hg
    simp only [insertCandidate, List.mem_singleton] at hg
    subst hg
    refine ⟨by simp, by simp [SubGroupsWF], ?_⟩
    intro sg hsg
    simp only [List.mem_singleton] at hsg
    subst hsg
    exact ⟨by simp, by simpa using hr⟩
  | cons x t ih =>
    obtain ⟨hnd, hall⟩ := hwf
    simp only [List.map_cons, List.nodup_cons] at hnd
    obtain ⟨hx, hndt⟩ := hnd
    obtain ⟨fk', sgs⟩ := x
    by_cases hk : fk' = fk
    · have hins : insertCandidate fk k r ((fk', sgs) :: t) = (fk', insertSub k r sgs) :: t := by
        simp [insertCandidate, hk]
      rw [hins]
      refine ⟨by rw [List.map_cons]; exact List.nodup_cons.mpr ⟨hx, hndt⟩, ?_⟩
      intro g hg
      rcases List.mem_cons.mp hg with h | h
      · subst h
        have hold := hall (fk', sgs) (List.mem_cons_self _ _)
        have hr' : classifyRedirect r = some (fk', k) := by rw [hk]; exact hr
        refine ⟨?_, insertSub_WF hold.2 hr'⟩
        cases sgs with
        | nil => simp [insertSub]
        | cons y u => simp only [insertSub]; split <;> simp
      · exact hall g (List.mem_cons_of_mem _ h)
    · have hwft : GroupsWF t :=
        ⟨hndt, fun g hg => hall g (List.mem_cons_of_mem _ hg)⟩
      obtain ⟨ihnd, ihall⟩ := ih hwft
      refine ⟨?_, ?_⟩
      · simp only [insertCandidate, if_neg hk, List.map_cons, List.nodup_cons]
        refine ⟨fun hmem => ?_, ihnd⟩
        rcases mem_keys_insertCandidate hmem with h | h
        · exact hx h
        · exact hk h
      · intro g hg
        simp only [insertCandidate, if_neg hk, List.mem_cons] at hg
        rcases hg with h | h
        · subst h
          exact hall (fk', sgs) (List.mem_cons_self _ _)
        · exact ihall g h

theorem foldl_groupStep_WF (rs : List Redirect) (acc : List FromGroup × List Redirect)
    (hacc : GroupsWF acc.1) : GroupsWF (rs.foldl groupStep acc).1 := by
  induction rs generalizing acc with
  | nil => exact hacc
  | cons r t ih =>
    rw [List.foldl_cons]
    refine ih (groupStep acc r) ?_
    unfold groupStep
    cases hcl : classifyRedirect r with
    | none => exact hacc
    | some p => exact insertCandidate_WF hacc hcl

theorem groupCandidates_WF (rs : List Redirect) : GroupsWF (groupCandidates rs).1 :=
  foldl_groupStep_WF rs ([], []) ⟨by simp, by simp⟩

theorem foldl_groupStep_perm (rs : List Redirect) (acc : List FromGroup × List Redirect) :
    ((rs.foldl groupStep acc).2 ++ groupRedirects (rs.foldl groupStep acc).1).Perm
      ((acc.2 ++ groupRedirects acc.1) ++ rs) := by
  induction rs generalizing acc with
  | nil => simp
  | cons r t ih =>
    rw [List.foldl_cons]
    refine (ih (groupStep acc r)).trans ?_
    have hstep : ((groupStep acc r).2 ++ groupRedirects (groupStep acc r).1).Perm
        ((acc.2 ++ groupRedirects acc.1) ++ [r]) := by
      cases hcl : classifyRedirect r with
      | none =>
        simp only [groupStep, hcl]
        rw [List.append_assoc, List.append_assoc]
        exact (@List.perm_append_comm _ [r] _).append_left acc.2
      | some p =>
        obtain ⟨fk, k⟩ := p
        simp only [groupStep, hcl]
        refine ((insertCandidate_flat_perm fk k r acc.1).append_left acc.2).trans ?_
        rw [List.append_assoc]
        refine List.Perm.append_left acc.2 ?_
        exact (List.perm_append_singleton r _).symm
    have hfin : ((acc.2 ++ groupRedirects acc.1) ++ [r]) ++ t
        = (acc.2 ++ groupRedirects acc.1) ++ (r :: t) := by
      simp
    rw [← hfin]
    exact hstep.append_right t

theorem groupCandidates_perm (rs : List Redirect) :
    ((groupCandidates rs).2 ++ groupRedirects (groupCandidates rs).1).Perm rs := by
  have := foldl_groupStep_perm rs ([], [])
  simpa [groupCandidates, groupRedirects] using this

theorem subRedirects_perm {sgs sgs' : List SubGroup} (h : sgs.Perm sgs') :
    (subRedirects sgs).Perm (subRedirects sgs') :=
  h.flatMap_right _

/-- Per group: the winner's members plus the leftovers are exactly the stored
redirects. -/
theorem group_partition {g : FromGroup} (hnd : (g.2.map (·.1)).Nodup) :
    (((groupWildcard g).elim [] Wildcard.matching_redirects) ++ groupLeftover g).Perm
      (subRedirects g.2) := by
  cases hsel : selectBest g.2 with
  | none =>
    have hnil : g.2 = [] := (selectBest_eq_none_iff _).mp hsel
    simp [groupWildcard, groupLeftover, hnil, selectBest_nil, subRedirects]
  | some sg =>
    have hmem : sg ∈ g.2 := selectBest_mem hsel
    have hperm := removeKey_perm hmem hnd
    have : (subRedirects g.2).Perm (sg.2 ++ subRedirects (removeKey sg.1 g.2)) := by
      refine (subRedirects_perm hperm).trans ?_
      rw [subRedirects_cons]
    simp only [groupWildcard, groupLeftover, hsel, Option.map_some', Option.elim_some]
    exact this.symm

/-- Across all groups: winners' members plus leftovers are exactly the grouped
redirects. -/
theorem groups_partition {gs : List FromGroup} (h : ∀ g ∈ gs, (g.2.map (·.1)).Nodup) :
    (((gs.filterMap groupWildcard).flatMap Wildcard.matching_redirects) ++
      gs.flatMap groupLeftover).Perm (groupRedirects gs) := by
  induction gs with
  | nil => simp [groupRedirects]
  | cons g t ih =>
    have hg := h g (List.mem_cons_self _ _)
    have iht := ih (fun g' hg' => h g' (List.mem_cons_of_mem _ hg'))
    rw [groupRedirects_cons]
    cases hw : groupWildcard g with
    | none =>
      have hsel : selectBest g.2 = none := by
        cases hsome : selectBest g.2 with
        | none => rfl
        | some sg => simp [groupWildcard, hsome] at hw
      have hnil : g.2 = [] := (selectBest_eq_none_iff _).mp hsel
      have hleft : groupLeftover g = [] := by
        simp [groupLeftover, hsel, hnil, selectBest_nil]
      have hsub : subRedirects g.2 = [] := by simp [hnil, subRedirects]
      rw [List.filterMap_cons_none hw, List.flatMap_cons, hleft, hsub]
      simpa using iht
    | some w =>
      have hpart := group_partition hg
      rw [hw] at hpart
      simp only [Option.elim_some] at hpart
      rw [List.filterMap_cons_some hw, List.flatMap_cons, List.flatMap_cons,
        List.append_assoc]
      refine ((List.perm_append_comm_assoc _ _ _).append_left w.matching_redirects).trans ?_
      rw [← List.append_assoc]
      exact hpart.append iht

theorem build_unmatched_perm (rs : List Redirect) :
    (WildcardStore.build rs).unmatched.Perm
      ((groupCandidates rs).2 ++ (groupCandidates rs).1.flatMap groupLeftover) :=
  List.perm_insertionSort _ _

theorem build_wildcards_perm (rs : List Redirect) :
    (WildcardStore.build rs).wildcards.Perm ((groupCandidates rs).1.filterMap groupWildcard) :=
  List.perm_insertionSort _ _

theorem groupCandidates_inner_nodup (rs : List Redirect) :
    ∀ g ∈ (groupCandidates rs).1, (g.2.map (·.1)).Nodup :=
  fun g hg => ((groupCandidates_WF rs).2 g hg).2.1

/-- The combined content of the built store is a permutation of the input. -/
theorem build_content_perm (rs : List Redirect) :
    ((WildcardStore.build rs).unmatched ++
      (WildcardStore.build rs).wildcards.flatMap Wildcard.matching_redirects).Perm rs := by
  refine (((build_unmatched_perm rs).append
    ((build_wildcards_perm rs).flatMap_right Wildcard.matching_redirects)).trans ?_)
  rw [List.append_assoc]
  refine (List.Perm.append_left _ ((List.perm_append_comm).trans
    (groups_partition (groupCandidates_inner_nodup rs)))).trans ?_
  exact groupCandidates_perm rs

theorem classifyRedirect_some_spec {r : Redirect} {fk : GroupKey} {k : SubKey}
    (h : classifyRedirect r = some (fk, k)) :
    (∃ v, r.version = RedirectVersion.version v) ∧
      splitOnce r.version.toStr r.«from» = some fk ∧
      k = (r.kind, splitAll r.version.toStr r.«to») := by
  obtain ⟨rv, rk, rf, rt, rc⟩ := r
  cases rv with
  | latest => simp [classifyRedirect] at h
  | range rg => simp [classifyRedirect] at h
  | version v =>
    simp only [classifyRedirect] at h
    cases hsp : splitOnce (RedirectVersion.version v).toStr rf with
    | none => rw [hsp] at h; simp at h
    | some fk' =>
      rw [hsp] at h
      simp only [Option.some.injEq, Prod.mk.injEq] at h
      obtain ⟨h1, h2⟩ := h
      subst h1
      exact ⟨⟨v, rfl⟩, rfl, h2.symm⟩

theorem classifyRedirect_none_version {r : Redirect} {v : Str}
    (hv : r.version = RedirectVersion.version v)
    (hsp : splitOnce r.version.toStr r.«from» = none) : classifyRedirect r = none := by
  obtain ⟨rv, rk, rf, rt, rc⟩ := r
  simp only at hv hsp ⊢
  subst hv
  simp only [classifyRedirect]
  rw [hsp]

theorem classifyRedirect_some_of {r : Redirect} {v : Str} {fk : GroupKey}
    (hv : r.version = RedirectVersion.version v)
    (hsp : splitOnce r.version.toStr r.«from» = some fk) :
    classifyRedirect r = some (fk, (r.kind, splitAll r.version.toStr r.«to»)) := by
  obtain ⟨rv, rk, rf, rt, rc⟩ := r
  simp only at hv hsp ⊢
  subst hv
  simp only [classifyRedirect]
  rw [hsp]

theorem build_wildcard_exists {rs : List Redirect} {w : Wildcard}
    (hw : w ∈ (WildcardStore.build rs).wildcards) :
    ∃ g ∈ (groupCandidates rs).1, groupWildcard g = some w :=
  List.mem_filterMap.mp ((build_wildcards_perm rs).mem_iff.mp hw)

theorem build_wildcard_member {rs : List Redirect} {w : Wildcard} {r : Redirect}
    (hw : w ∈ (WildcardStore.build rs).wildcards) (hr : r ∈ w.matching_redirects) :
    classifyRedirect r = some (w.from_components, (w.kind, w.to_components)) := by
  obtain ⟨g, hg, hgw⟩ := build_wildcard_exists hw
  rw [groupWildcard] at hgw
  obtain ⟨sg, hsel, hwe⟩ := Option.map_eq_some'.mp hgw
  have hsgmem : sg ∈ g.2 := selectBest_mem hsel
  have hWF := ((groupCandidates_WF rs).2 g hg).2
  have hr' : r ∈ sg.2 := by
    rw [← hwe] at hr
    exact hr
  have hcls := (hWF.2 sg hsgmem).2 r hr'
  rw [← hwe]
  exact hcls

/-- C1: the store built by `WildcardStore::build` partitions its input
exactly: every input `Redirect` lands either in `unmatched` or in the
`matching_redirects` of exactly one wildcard (multiset equality: nothing
dropped or duplicated), the multiset of covered `from` paths is unchanged,
and no redirect is assigned to a wildcard of a different destination shape
(kind and `to`-split agree with the wildcard's). -/
theorem wildcardStore_partitions_input (rs : List Redirect) :
    (((WildcardStore.build rs).unmatched ++
        (WildcardStore.build rs).wildcards.flatMap Wildcard.matching_redirects).Perm rs) ∧
      (((WildcardStore.build rs).unmatched.map Redirect.«from» ++
        (WildcardStore.build rs).wildcards.flatMap
          (fun w => w.matching_redirects.map Redirect.«from»)).Perm
        (rs.map Redirect.«from»)) ∧
      ∀ w ∈ (WildcardStore.build rs).wildcards, ∀ r ∈ w.matching_redirects,
        r.kind = w.kind ∧ splitAll r.version.toStr r.«to» = w.to_components := by
  refine ⟨build_content_perm rs, ?_, ?_⟩
  · have h := (build_content_perm rs).map Redirect.«from»
    rw [List.map_append, List.map_flatMap] at h
    exact h
  · intro w hw r hr
    have hcls := build_wildcard_member hw hr
    obtain ⟨⟨v, hv⟩, hsp, hk⟩ := classifyRedirect_some_spec hcls
    simp only [Prod.mk.injEq] at hk
    exact ⟨hk.1.symm, hk.2.symm⟩

/-- C2: for every literal redirect subsumed by a wildcard, substituting the
redirect's concrete version text for the placeholder in the wildcard's
`from` pattern and joined `to` components reproduces exactly the redirect's
original `from` and `to`. -/
theorem wildcard_substitution_exact (rs : List Redirect) :
    ∀ w ∈ (WildcardStore.build rs).wildcards, ∀ r ∈ w.matching_redirects,
      w.from_components.1 ++ r.version.toStr ++ w.from_components.2 = r.«from» ∧
        joinWith r.version.toStr w.to_components = r.«to» := by
  intro w hw r hr
  have hcls := build_wildcard_member hw hr
  obtain ⟨⟨v, hv⟩, hsp, hk⟩ := classifyRedirect_some_spec hcls
  simp only [Prod.mk.injEq] at hk
  constructor
  · exact splitOnce_append hsp
  · rw [hk.2]
    exact joinWith_splitAll _ _

/-- Concrete inputs for witnesses: two compressible `Location` redirects
sharing one shape, plus one `latest` redirect that stays literal. -/
def exR0 : Redirect :=
  ⟨.latest, .release, "d/latest/release".toList, "u/l".toList, 302⟩

def exR1 : Redirect :=
  ⟨.version "1".toList, .location, "d/1/x".toList, "u/1".toList, 302⟩

def exR2 : Redirect :=
  ⟨.version "2".toList, .location, "d/2/x".toList, "u/2".toList, 302⟩

def exRs : List Redirect := [exR0, exR1, exR2]

/-- The wildcard `WildcardStore::build` derives from `exRs`. -/
def exW : Wildcard :=
  ⟨.location, ("d/".toList, "/x".toList), ["u/".toList, []],
    [exR1, exR2]⟩

theorem wildcard_substitution_exact_witness :
    exW.from_components.1 ++ exR1.version.toStr ++ exW.from_components.2 = exR1.«from» ∧
      joinWith exR1.version.toStr exW.to_components = exR1.«to» :=
  wildcard_substitution_exact exRs exW (by decide) exR1 (by decide)

theorem foldl_groupStep_unmatched (rs : List Redirect) (acc : List FromGroup × List Redirect)
    {r : Redirect} (h : r ∈ acc.2 ∨ (r ∈ rs ∧ classifyRedirect r = none)) :
    r ∈ (rs.foldl groupStep acc).2 := by
  induction rs generalizing acc with
  | nil =>
    rcases h with h | h
    · exact h
    · simp at h
  | cons x t ih =>
    rw [List.foldl_cons]
    refine ih (groupStep acc x) ?_
    rcases h with h | ⟨hmem, hcl⟩
    · left
      unfold groupStep
      cases classifyRedirect x with
      | none => exact List.mem_append_left _ h
      | some p => exact h
    · rcases List.mem_cons.mp hmem with hx | hx
      · subst hx
        left
        unfold groupStep
        rw [hcl]
        exact List.mem_append_right _ (List.mem_singleton.mpr rfl)
      · exact Or.inr ⟨hx, hcl⟩

theorem insertCandidate_keys_self (fk : GroupKey) (k : SubKey) (r : Redirect)
    (gs : List FromGroup) : fk ∈ (insertCandidate fk k r gs).map (·.1) := by
  induction gs with
  | nil => simp [insertCandidate]
  | cons g t ih =>
    obtain ⟨fk', sgs⟩ := g
    by_cases hk : fk' = fk
    · simp [insertCandidate, hk]
    · simp only [insertCandidate, if_neg hk, List.map_cons, List.mem_cons]
      exact Or.inr ih

theorem insertCandidate_keys_mono {x : GroupKey} (fk : GroupKey) (k : SubKey) (r : Redirect)
    {gs : List FromGroup} (h : x ∈ gs.map (·.1)) :
    x ∈ (insertCandidate fk k r gs).map (·.1) := by
  induction gs with
  | nil => simp at h
  | cons g t ih =>
    obtain ⟨fk', sgs⟩ := g
    simp only [List.map_cons, List.mem_cons] at h
    by_cases hk : fk' = fk
    · simp only [insertCandidate, if_pos hk, List.map_cons, List.mem_cons]
      rcases h with h | h
      · exact Or.inl h
      · exact Or.inr h
    · simp only [insertCandidate, if_neg hk, List.map_cons, List.mem_cons]
      rcases h with h | h
      · exact Or.inl h
      · exact Or.inr (ih h)

theorem foldl_groupStep_keys (rs : List Redirect) (acc : List FromGroup × List Redirect)
    {fk : GroupKey} {k : SubKey} {r : Redirect}
    (h : fk ∈ acc.1.map (·.1) ∨ (r ∈ rs ∧ classifyRedirect r = some (fk, k))) :
    fk ∈ ((rs.foldl groupStep acc).1).map (·.1) := by
  induction rs generalizing acc with
  | nil =>
    rcases h with h | h
    · exact h
    · simp at h
  | cons x t ih =>
    rw [List.foldl_cons]
    refine ih (groupStep acc x) ?_
    rcases h with h | ⟨hmem, hcl⟩
    · left
      unfold groupStep
      cases classifyRedirect x with
      | none => exact h
      | some p => exact insertCandidate_keys_mono p.1 p.2 x h
    · rcases List.mem_cons.mp hmem with hx | hx
      · subst hx
        left
        unfold groupStep
        rw [hcl]
        exact insertCandidate_keys_self fk k r acc.1
      · exact Or.inr ⟨hx, hcl⟩

theorem splitOnce_of_append {pat a b : Str} : ∀ {s : Str}, a ++ pat ++ b = s →
    splitOnce pat s ≠ none := by
  induction a with
  | nil =>
    intro s h
    simp only [List.nil_append] at h
    cases s with
    | nil =>
      have : pat = [] := by
        cases pat with
        | nil => rfl
        | cons c cs => simp at h
      simp [splitOnce, this]
    | cons c cs =>
      have hpre : pat.isPrefixOf (c :: cs) := List.isPrefixOf_iff_prefix.mpr ⟨b, h⟩
      simp [splitOnce, hpre]
  | cons x a' ih =>
    intro s h
    cases s with
    | nil => simp at h
    | cons c cs =>
      simp only [List.cons_append, List.cons.injEq] at h
      obtain ⟨hx, hrest⟩ := h
      simp only [splitOnce]
      split
      · simp
      · have := ih hrest
        cases hsp : splitOnce pat cs with
        | none => exact absurd hsp this
        | some ab => simp

theorem splitOnce_first {pat s a b : Str} (h : splitOnce pat s = some (a, b)) :
    ∀ a' b' : Str, a' ++ pat ++ b' = s → a.length ≤ a'.length := by
  induction s generalizing a b with
  | nil =>
    intro a' b' hs
    simp only [splitOnce] at h
    split at h
    · simp_all
    · simp at h
  | cons c cs ih =>
    intro a' b' hs
    simp only [splitOnce] at h
    split at h
    · simp only [Option.some.injEq, Prod.mk.injEq] at h
      obtain ⟨ha, _⟩ := h
      subst ha
      simp
    · rename_i hpre
      revert h
      cases hsp : splitOnce pat cs with
      | none => simp
      | some ab =>
        obtain ⟨a₀, b₀⟩ := ab
        intro h
        simp only [Option.some.injEq, Prod.mk.injEq] at h
        obtain ⟨ha, hb⟩ := h
        subst ha
        cases a' with
        | nil =>
          exfalso
          simp only [List.nil_append] at hs
          exact hpre (List.isPrefixOf_iff_prefix.mpr ⟨b', hs⟩)
        | cons x a₁ =>
          simp only [List.cons_append, List.cons.injEq] at hs
          obtain ⟨_, hrest⟩ := hs
          simpa using ih hsp a₁ b' hrest

theorem mem_build_unmatched_of_um0 {rs : List Redirect} {r : Redirect}
    (h : r ∈ (groupCandidates rs).2) : r ∈ (WildcardStore.build rs).unmatched :=
  (build_unmatched_perm rs).mem_iff.mpr (List.mem_append_left _ h)

/-- C7: a redirect is a compression candidate iff its version is the
`Version` variant and the rendered version text occurs in `from`;
non-candidates are placed unchanged in `unmatched`; for candidates, `from`
is split around exactly the first occurrence of the version text and `to`
on every occurrence. -/
theorem eligibility_filter (rs : List Redirect) :
    (∀ r : Redirect, classifyRedirect r ≠ none ↔
        ((∃ v, r.version = RedirectVersion.version v) ∧
          ∃ a b : Str, a ++ r.version.toStr ++ b = r.«from»)) ∧
      (∀ r ∈ rs, classifyRedirect r = none → r ∈ (WildcardStore.build rs).unmatched) ∧
      (∀ r : Redirect, ∀ fk : GroupKey, ∀ k : SubKey, classifyRedirect r = some (fk, k) →
        splitOnce r.version.toStr r.«from» = some fk ∧
          fk.1 ++ r.version.toStr ++ fk.2 = r.«from» ∧
          (∀ a' b' : Str, a' ++ r.version.toStr ++ b' = r.«from» → fk.1.length ≤ a'.length) ∧
          k = (r.kind, splitAll r.version.toStr r.«to»)) := by
  refine ⟨?_, ?_, ?_⟩
  · intro r
    constructor
    · intro hne
      obtain ⟨p, hp⟩ := Option.ne_none_iff_exists'.mp hne
      obtain ⟨fk, k⟩ := p
      obtain ⟨hv, hsp, _⟩ := classifyRedirect_some_spec hp
      exact ⟨hv, fk.1, fk.2, splitOnce_append hsp⟩
    · rintro ⟨⟨v, hv⟩, a, b, hab⟩
      have hne := splitOnce_of_append hab
      obtain ⟨fk, hsp⟩ := Option.ne_none_iff_exists'.mp hne
      rw [classifyRedirect_some_of hv hsp]
      simp
  · intro r hr hcl
    exact mem_build_unmatched_of_um0 (foldl_groupStep_unmatched rs ([], []) (Or.inr ⟨hr, hcl⟩))
  · intro r fk k hcl
    obtain ⟨hv, hsp, hk⟩ := classifyRedirect_some_spec hcl
    exact ⟨hsp, splitOnce_append hsp, fun a' b' hab => splitOnce_first hsp a' b' hab, hk⟩

/-- C10: a wildcard is emitted for every candidate's `(from_prefix,
from_suffix)` group, with no minimum group size: even a single candidate
produces a wildcard (see the witness on a one-element input). -/
theorem every_candidate_group_emits_wildcard (rs : List Redirect) :
    ∀ r ∈ rs, ∀ fk : GroupKey, ∀ k : SubKey, classifyRedirect r = some (fk, k) →
      ∃ w ∈ (WildcardStore.build rs).wildcards, w.from_components = fk := by
  intro r hr fk k hcl
  have hkey : fk ∈ ((groupCandidates rs).1).map (·.1) :=
    foldl_groupStep_keys rs ([], []) (Or.inr ⟨hr, hcl⟩)
  obtain ⟨g, hg, hgk⟩ := List.mem_map.mp hkey
  have hne : g.2 ≠ [] := ((groupCandidates_WF rs).2 g hg).1
  cases hsel : selectBest g.2 with
  | none => exact absurd ((selectBest_eq_none_iff _).mp hsel) hne
  | some sg =>
    refine ⟨⟨sg.1.1, g.1, sg.1.2, sg.2⟩, ?_, hgk⟩
    refine (build_wildcards_perm rs).mem_iff.mpr ?_
    refine List.mem_filterMap.mpr ⟨g, hg, ?_⟩
    simp [groupWildcard, hsel]

theorem every_candidate_group_emits_wildcard_witness :
    ∃ w ∈ (WildcardStore.build [exR1]).wildcards,
      w.from_components = ("d/".toList, "/x".toList) :=
  every_candidate_group_emits_wildcard [exR1] exR1 (by decide)
    ("d/".toList, "/x".toList) (RedirectKind.location, ["u/".toList, []]) (by decide)

theorem mem_removeKey_of_ne {k : SubKey} {sg' : SubGroup} : ∀ {sgs : List SubGroup},
    sg' ∈ sgs → sg'.1 ≠ k → sg' ∈ removeKey k sgs := by
  intro sgs
  induction sgs with
  | nil => intro h _; simp at h
  | cons x t ih =>
    intro h hne
    rcases List.mem_cons.mp h with hx | hx
    · subst hx
      simp [removeKey, hne]
    · by_cases hk : x.1 = k
      · simpa [removeKey, hk] using hx
      · simp only [removeKey, if_neg hk, List.mem_cons]
        exact Or.inr (ih hx hne)

theorem mem_build_unmatched_of_leftover {rs : List Redirect} {g : FromGroup} {r : Redirect}
    (hg : g ∈ (groupCandidates rs).1) (h : r ∈ groupLeftover g) :
    r ∈ (WildcardStore.build rs).unmatched := by
  refine (build_unmatched_perm rs).mem_iff.mpr (List.mem_append_right _ ?_)
  exact List.mem_flatMap.mpr ⟨g, hg, h⟩

/-- C4: for every `(from_prefix, from_suffix)` group the compressor emits
exactly one wildcard, whose sub-group has maximal member count within the
group, and every redirect of every non-winning sub-group lands in the
literal (`unmatched`) output. -/
theorem dominant_subgroup_selection (rs : List Redirect) :
    ∀ g ∈ (groupCandidates rs).1,
      ∃ w, w ∈ (WildcardStore.build rs).wildcards ∧ w.from_components = g.1 ∧
        ((w.kind, w.to_components), w.matching_redirects) ∈ g.2 ∧
        (∀ sg ∈ g.2, sg.2.length ≤ w.matching_redirects.length) ∧
        (∀ w' ∈ (WildcardStore.build rs).wildcards, w'.from_components = g.1 → w' = w) ∧
        (∀ sg ∈ g.2, sg.1 ≠ (w.kind, w.to_components) →
          ∀ r ∈ sg.2, r ∈ (WildcardStore.build rs).unmatched) := by
  intro g hg
  have hWF := groupCandidates_WF rs
  have hne : g.2 ≠ [] := (hWF.2 g hg).1
  cases hsel : selectBest g.2 with
  | none => exact absurd ((selectBest_eq_none_iff _).mp hsel) hne
  | some sg =>
    have hgw : groupWildcard g = some ⟨sg.1.1, g.1, sg.1.2, sg.2⟩ := by
      simp [groupWildcard, hsel]
    refine ⟨⟨sg.1.1, g.1, sg.1.2, sg.2⟩, ?_, rfl, ?_, ?_, ?_, ?_⟩
    · exact (build_wildcards_perm rs).mem_iff.mpr
        (List.mem_filterMap.mpr ⟨g, hg, hgw⟩)
    · exact selectBest_mem hsel
    · exact selectBest_max hsel
    · intro w' hw' hk'
      obtain ⟨g', hg', hgw'⟩ := build_wildcard_exists hw'
      have hfc : w'.from_components = g'.1 := by
        rw [groupWildcard] at hgw'
        obtain ⟨sg', _, hwe⟩ := Option.map_eq_some'.mp hgw'
        rw [← hwe]
      have hgg : g' = g :=
        List.inj_on_of_nodup_map hWF.1 hg' hg (by rw [← hfc, hk'])
      rw [hgg] at hgw'
      rw [hgw'] at hgw
      exact (Option.some.injEq _ _ ▸ hgw).symm ▸ rfl
    · intro sg' hsg' hne' r hr
      refine mem_build_unmatched_of_leftover hg ?_
      have hmem : sg' ∈ removeKey sg.1 g.2 := mem_removeKey_of_ne hsg' hne'
      rw [groupLeftover, hsel]
      exact List.mem_flatMap.mpr ⟨sg', hmem, hr⟩

/-- A third candidate sharing `exRs`'s from-shape but with a different
destination shape: its sub-group loses against the two-member winner. -/
def exR3 : Redirect :=
  ⟨.version "3".toList, .location, "d/3/x".toList, "w3".toList, 302⟩

def exRs4 : List Redirect := [exR1, exR2, exR3]

/-- The one grouping-map entry `groupCandidates` builds from `exRs4`. -/
def exG4 : FromGroup :=
  (("d/".toList, "/x".toList),
    [((RedirectKind.location, ["u/".toList, []]), [exR1, exR2]),
     ((RedirectKind.location, ["w".toList, []]), [exR3])])

theorem dominant_subgroup_selection_witness :
    ∃ w, w ∈ (WildcardStore.build exRs4).wildcards ∧ w.from_components = exG4.1 ∧
      ((w.kind, w.to_components), w.matching_redirects) ∈ exG4.2 ∧
      (∀ sg ∈ exG4.2, sg.2.length ≤ w.matching_redirects.length) ∧
      (∀ w' ∈ (WildcardStore.build exRs4).wildcards, w'.from_components = exG4.1 → w' = w) ∧
      (∀ sg ∈ exG4.2, sg.1 ≠ (w.kind, w.to_components) →
        ∀ r ∈ sg.2, r ∈ (WildcardStore.build exRs4).unmatched) :=
  dominant_subgroup_selection exRs4 exG4 (by decide)

instance : IsTotal Wildcard wildcardKeyLe :=
  ⟨fun a b => le_total a.sortKey b.sortKey⟩

instance : IsTrans Wildcard wildcardKeyLe :=
  ⟨fun _ _ _ hab hbc => le_trans hab hbc⟩

theorem build_unmatched_def (rs : List Redirect) :
    (WildcardStore.build rs).unmatched =
      List.insertionSort (· ≤ ·)
        ((groupCandidates rs).2 ++ (groupCandidates rs).1.flatMap groupLeftover) := rfl

theorem build_wildcards_def (rs : List Redirect) :
    (WildcardStore.build rs).wildcards =
      List.insertionSort wildcardKeyLe ((groupCandidates rs).1.filterMap groupWildcard) := rfl

/-- C8: the built store's `unmatched` list is sorted by the derived
`Redirect` order — lexicographic with leading components `(version, kind,
from)` and `Release < Location < Alias` within a version — and the wildcard
list is sorted by the `(kind, from_components)` key. -/
theorem store_outputs_sorted (rs : List Redirect) :
    List.Sorted (· ≤ ·) (WildcardStore.build rs).unmatched ∧
      List.Sorted wildcardKeyLe (WildcardStore.build rs).wildcards ∧
      (∀ a b : Redirect, a.version = b.version → a.kind = RedirectKind.release →
        b.kind = RedirectKind.location → a < b) ∧
      (∀ a b : Redirect, a.version = b.version → a.kind = RedirectKind.location →
        b.kind = RedirectKind.alias → a < b) ∧
      (∀ a b : Redirect, a.version.sortKey < b.version.sortKey → a < b) := by
  refine ⟨?_, ?_, ?_, ?_, ?_⟩
  · rw [build_unmatched_def]
    exact List.sorted_insertionSort _ _
  · rw [build_wildcards_def]
    exact List.sorted_insertionSort _ _
  · intro a b hv hka hkb
    show a.sortKey < b.sortKey
    rw [Redirect.sortKey, Redirect.sortKey, Prod.Lex.lt_iff]
    right
    refine ⟨by rw [hv], ?_⟩
    rw [Prod.Lex.lt_iff]
    left
    simp [RedirectKind.ctorIdx, hka, hkb]
  · intro a b hv hka hkb
    show a.sortKey < b.sortKey
    rw [Redirect.sortKey, Redirect.sortKey, Prod.Lex.lt_iff]
    right
    refine ⟨by rw [hv], ?_⟩
    rw [Prod.Lex.lt_iff]
    left
    simp [RedirectKind.ctorIdx, hka, hkb]
  · intro a b hv
    show a.sortKey < b.sortKey
    rw [Redirect.sortKey, Redirect.sortKey, Prod.Lex.lt_iff]
    exact Or.inl hv

theorem foldl_append_flatMap {α β : Type} (g : α → List β) (step : List β → α → List β)
    (hstep : ∀ o a, step o a = o ++ g a) :
    ∀ (l : List α) (out : List β), l.foldl step out = out ++ l.flatMap g := by
  intro l
  induction l with
  | nil => intro out; simp
  | cons a t ih =>
    intro out
    rw [List.foldl_cons, hstep, ih, List.flatMap_cons, List.append_assoc]

/-- The spec's description of one three-tier expansion (spec §4.1): one
`Release` redirect, then per location one `Location` redirect followed by
one `Alias` redirect for every alias whose target and format equal the
location's. This is the spec-side description, to be compared with the
code-side `appendRedirectList`. -/
def expectedRedirects (version : RedirectVersion) (vd : ReleaseVersionData)
    (aliases : List Alias) (pre : Str) : List Redirect :=
  ⟨version, .release, pre ++ "/".toList ++ version.toStr ++ "/release".toList,
    vd.release_url, 302⟩ ::
  vd.locations.flatMap fun location =>
    ⟨version, .location,
      pre ++ "/".toList ++ version.toStr ++ "/".toList ++ location.target ++ ".".toList ++
        location.format, location.url, 302⟩ ::
    (aliases.filter fun al =>
        al.target_format.target == location.target &&
          al.target_format.format == location.format).map
      fun al => ⟨version, .alias,
        pre ++ "/".toList ++ version.toStr ++ "/".toList ++ al.«alias», location.url, 302⟩

/-- The spec's list of visited version tags with their version data (spec
§4.1): `latest` if declared, each non-prerelease range's latest, and every
individual version, in input order. Spec-side description. -/
def visitedTags (project : Project) : List (RedirectVersion × ReleaseVersionData) :=
  (match project.latest with
   | some range =>
     [(RedirectVersion.latest,
       (project.rangeData range).versionData (project.rangeData range).latest)]
   | none => []) ++
  project.ranges.flatMap fun rd =>
    (if rd.2.is_prerelease then []
     else [(RedirectVersion.range rd.1, rd.2.versionData rd.2.latest)]) ++
    rd.2.versions.map fun vv => (RedirectVersion.version vv.1, vv.2)

theorem flatMap_singleton_map {α β : Type} (f : α → β) (l : List α) :
    (l.flatMap fun a => [f a]) = l.map f := by
  induction l with
  | nil => rfl
  | cons a t ih => simp only [List.flatMap_cons, ih, List.map_cons, List.singleton_append]

theorem appendRedirectList_eq (version : RedirectVersion) (vd : ReleaseVersionData)
    (aliases : List Alias) (pre : Str) (out : List Redirect) :
    appendRedirectList version vd aliases pre out =
      out ++ expectedRedirects version vd aliases pre := by
  simp only [appendRedirectList, expectedRedirects]
  refine (foldl_append_flatMap
    (fun (location : ReleaseLocation) =>
      (⟨version, .location,
        pre ++ "/".toList ++ version.toStr ++ "/".toList ++ location.target ++ ".".toList ++
          location.format, location.url, 302⟩ : Redirect) ::
      (aliases.filter fun al =>
          al.target_format.target == location.target &&
            al.target_format.format == location.format).map
        fun al => ⟨version, .alias,
          pre ++ "/".toList ++ version.toStr ++ "/".toList ++ al.«alias», location.url, 302⟩)
    _ ?_ _ _).trans ?_
  · intro o location
    dsimp only
    refine (foldl_append_flatMap (fun (al : Alias) => [(⟨version, .alias,
      pre ++ "/".toList ++ version.toStr ++ "/".toList ++ al.«alias», location.url,
      302⟩ : Redirect)]) _ (fun o' al => rfl) _ _).trans ?_
    rw [flatMap_singleton_map]
    simp
  · simp

/-- C5: the Enumerator's full output is exactly the spec's three-tier
expansion (`expectedRedirects`) applied to every visited tag
(`visitedTags`): one `Release` redirect per tag, one `Location` redirect
per location, and one `Alias` redirect per alias matching a location's
target and format. -/
theorem enumerator_three_tier (project : Project) (aliases : List Alias) (pre : Str) :
    projectRedirects project aliases pre =
      (visitedTags project).flatMap fun vv => expectedRedirects vv.1 vv.2 aliases pre := by
  simp only [projectRedirects, visitedTags]
  rw [List.flatMap_append]
  refine (foldl_append_flatMap
    (fun (rd : Str × RangeData) =>
      (if rd.2.is_prerelease then []
       else expectedRedirects (.range rd.1) (rd.2.versionData rd.2.latest) aliases pre) ++
      rd.2.versions.flatMap fun vv => expectedRedirects (.version vv.1) vv.2 aliases pre)
    _ ?_ _ _).trans ?_
  · intro o rd
    dsimp only
    by_cases hp : rd.2.is_prerelease
    · rw [if_pos hp, if_pos hp]
      refine (foldl_append_flatMap (fun (vv : Str × ReleaseVersionData) =>
        expectedRedirects (.version vv.1) vv.2 aliases pre) _
        (fun o' vv => appendRedirectList_eq _ _ _ _ _) _ _).trans ?_
      simp
    · rw [if_neg hp, if_neg hp, appendRedirectList_eq]
      refine (foldl_append_flatMap (fun (vv : Str × ReleaseVersionData) =>
        expectedRedirects (.version vv.1) vv.2 aliases pre) _
        (fun o' vv => appendRedirectList_eq _ _ _ _ _) _ _).trans ?_
      simp
  · have hbase : (match project.latest with
        | some range => appendRedirectList RedirectVersion.latest
            ((project.rangeData range).versionData (project.rangeData range).latest) aliases pre []
        | none => []) =
        (match project.latest with
         | some range => [(RedirectVersion.latest,
             (project.rangeData range).versionData (project.rangeData range).latest)]
         | none => ([] : List (RedirectVersion × ReleaseVersionData))).flatMap
          (fun vv => expectedRedirects vv.1 vv.2 aliases pre) := by
      cases project.latest with
      | none => rfl
      | some range => simp [appendRedirectList_eq]
    rw [hbase]
    congr 1
    rw [List.flatMap_assoc]
    refine congrArg (List.flatMap project.ranges) (funext fun rd => ?_)
    rw [List.flatMap_append, List.flatMap_map]
    congr 1
    by_cases hp : rd.2.is_prerelease
    · simp [hp]
    · simp [hp]

theorem writeLines_eq (out : Str) (lines : List Str) :
    writeLines out lines = out ++ lines.flatMap (· ++ ['\n']) :=
  foldl_append_flatMap _ _ (fun o l => by rw [List.append_assoc]) lines out

/-- C6: in compressed (Cloudflare) mode the generated text is the header,
then every literal (`unmatched`) rule line, and only then every wildcard
rule line — each literal rule appears strictly before each wildcard rule. -/
theorem literals_before_wildcards (project : Project) (aliases : List Alias) (pre : Str) :
    generateOutput project aliases .cloudflare pre =
      headerFor .cloudflare ++
        ((WildcardStore.build (projectRedirects project aliases (trimEndSlashes pre))).unmatched.map
            Redirect.display).flatMap (· ++ ['\n']) ++
        ((WildcardStore.build (projectRedirects project aliases (trimEndSlashes pre))).wildcards.map
            Wildcard.display).flatMap (· ++ ['\n']) := by
  simp only [generateOutput]
  rw [writeLines_eq, writeLines_eq]

/-- C9: `generate_redirects` succeeds exactly when the release tree holds
one project; with zero or several projects it fails with the
single-project error before any output text is built (the file write, the
only other failure source, is outside the pure model). -/
theorem single_project_check (release_json : MuktiReleasesJson) (aliases : List Alias)
    (flavor : RedirectFlavor) (pre : Str) :
    ((∃ s, generateRedirects release_json aliases flavor pre = Except.ok s) ↔
      release_json.projects.length = 1) ∧
      (release_json.projects.length ≠ 1 →
        generateRedirects release_json aliases flavor pre =
          Except.error ("mukti-bin currently only supports one project".toList)) := by
  obtain ⟨ps⟩ := release_json
  cases ps with
  | nil => simp [generateRedirects]
  | cons p t =>
    cases t with
    | nil =>
      obtain ⟨name, project⟩ := p
      simp [generateRedirects]
    | cons q u => simp [generateRedirects]

/-- One outer-map entry read in a different inner iteration order: same key,
sub-group entries permuted, each sub-group's redirect vector intact. -/
def SubArranged (g g' : FromGroup) : Prop := g.1 = g'.1 ∧ g.2.Perm g'.2

instance (g g' : FromGroup) : Decidable (SubArranged g g') :=
  inferInstanceAs (Decidable (_ ∧ _))

/-- `gs'` enumerates the same grouping-map content as `gs` in a possibly
different hash-map iteration order: outer entries permuted and every inner
sub-group list permuted. -/
def Arranged (gs gs' : List FromGroup) : Prop :=
  ∃ mid, gs.Perm mid ∧ List.Forall₂ SubArranged mid gs'

/-- No two sub-groups of any group have equal member counts, so the
`best_to` winner never depends on a tie. -/
def NoTies (gs : List FromGroup) : Prop :=
  ∀ g ∈ gs, ∀ sg ∈ g.2, ∀ sg' ∈ g.2, sg.1 ≠ sg'.1 → sg.2.length ≠ sg'.2.length

instance (gs : List FromGroup) : Decidable (NoTies gs) :=
  inferInstanceAs (Decidable (∀ g ∈ gs, ∀ sg ∈ g.2, ∀ sg' ∈ g.2,
    sg.1 ≠ sg'.1 → sg.2.length ≠ sg'.2.length))

/-- The Cloudflare output of `generate_redirects` when the grouping maps are
iterated in the order `gs` (the canonical `generateOutput` uses
first-insertion order). -/
def generateOutputArranged (project : Project) (aliases : List Alias) (pre : Str)
    (gs : List FromGroup) : Str :=
  let np := trimEndSlashes pre
  let redirects := projectRedirects project aliases np
  let store := buildFromGroups gs (groupCandidates redirects).2
  writeLines (writeLines (headerFor .cloudflare) (store.unmatched.map Redirect.display))
    (store.wildcards.map Wildcard.display)

/-- With a strictly dominant winner, a group contributes the same wildcard
and (up to permutation) the same leftovers under any inner iteration order. -/
theorem groupWildcard_arranged {g g' : FromGroup}
    (hnd : (g.2.map (·.1)).Nodup)
    (hnt : ∀ sg ∈ g.2, ∀ sg' ∈ g.2, sg.1 ≠ sg'.1 → sg.2.length ≠ sg'.2.length)
    (hsa : SubArranged g g') :
    groupWildcard g' = groupWildcard g ∧ (groupLeftover g').Perm (groupLeftover g) := by
  obtain ⟨hk, hperm⟩ := hsa
  cases hsel : selectBest g.2 with
  | none =>
    have hnil : g.2 = [] := (selectBest_eq_none_iff _).mp hsel
    have hnil' : g'.2 = [] := by
      rw [hnil] at hperm
      exact hperm.symm.eq_nil
    simp [groupWildcard, groupLeftover, hnil, hnil', selectBest_nil, hk]
  | some sg =>
    have hsgmem : sg ∈ g.2 := selectBest_mem hsel
    have hdom : ∀ x ∈ g.2, x ≠ sg → x.2.length < sg.2.length := by
      intro x hx hne
      have hle := selectBest_max hsel x hx
      have hkne : x.1 ≠ sg.1 := fun hkeq =>
        hne (List.inj_on_of_nodup_map hnd hx hsgmem hkeq)
      exact Nat.lt_of_le_of_ne hle (hnt x hx sg hsgmem hkne)
    have hsel' : selectBest g'.2 = some sg := selectBest_perm_eq hperm hsel hdom
    constructor
    · simp [groupWildcard, hsel, hsel', hk]
    · have hnd' : (g'.2.map (·.1)).Nodup := ((hperm.map _).nodup_iff).mp hnd
      have h1 := removeKey_perm hsgmem hnd
      have h2 := removeKey_perm (selectBest_mem hsel') hnd'
      have h3 : (sg :: removeKey sg.1 g'.2).Perm (sg :: removeKey sg.1 g.2) :=
        h2.symm.trans (hperm.symm.trans h1)
      have hRR : (removeKey sg.1 g'.2).Perm (removeKey sg.1 g.2) := h3.cons_inv
      simp only [groupLeftover, hsel, hsel']
      exact hRR.flatMap_right _

theorem forall₂_groupWildcard_leftover {mid gs' : List FromGroup}
    (h : List.Forall₂ SubArranged mid gs')
    (hP : ∀ g ∈ mid, (g.2.map (·.1)).Nodup ∧
      ∀ sg ∈ g.2, ∀ sg' ∈ g.2, sg.1 ≠ sg'.1 → sg.2.length ≠ sg'.2.length) :
    List.Forall₂ (fun g g' => groupWildcard g' = groupWildcard g ∧
      (groupLeftover g').Perm (groupLeftover g)) mid gs' := by
  induction h with
  | nil => exact .nil
  | @cons g g' t t' hgg htt ih =>
    refine List.Forall₂.cons ?_ (ih fun x hx => hP x (List.mem_cons_of_mem _ hx))
    have hp := hP g (List.mem_cons_self _ _)
    exact groupWildcard_arranged hp.1 hp.2 hgg

theorem filterMap_groupWildcard_forall₂ {mid gs' : List FromGroup}
    (h : List.Forall₂ (fun g g' => groupWildcard g' = groupWildcard g) mid gs') :
    gs'.filterMap groupWildcard = mid.filterMap groupWildcard := by
  induction h with
  | nil => rfl
  | @cons g g' t t' hgg htt ih =>
    rw [List.filterMap_cons, List.filterMap_cons, hgg, ih]

theorem flatMap_groupLeftover_forall₂ {mid gs' : List FromGroup}
    (h : List.Forall₂ (fun g g' => (groupLeftover g').Perm (groupLeftover g)) mid gs') :
    (gs'.flatMap groupLeftover).Perm (mid.flatMap groupLeftover) := by
  induction h with
  | nil => exact List.Perm.refl _
  | @cons g g' t t' hgg htt ih =>
    rw [List.flatMap_cons, List.flatMap_cons]
    exact hgg.append ih

theorem groupWildcard_from {g : FromGroup} {w : Wildcard} (h : groupWildcard g = some w) :
    w.from_components = g.1 := by
  rw [groupWildcard] at h
  obtain ⟨sg, _, hwe⟩ := Option.map_eq_some'.mp h
  rw [← hwe]

theorem filterMap_groupWildcard_keys_nodup {gs : List FromGroup}
    (hnd : (gs.map (·.1)).Nodup) :
    ((gs.filterMap groupWildcard).map Wildcard.from_components).Nodup := by
  induction gs with
  | nil => simp
  | cons g t ih =>
    simp only [List.map_cons, List.nodup_cons] at hnd
    obtain ⟨hg, hndt⟩ := hnd
    cases hw : groupWildcard g with
    | none => rw [List.filterMap_cons_none hw]; exact ih hndt
    | some w =>
      rw [List.filterMap_cons_some hw, List.map_cons]
      refine List.nodup_cons.mpr ⟨?_, ih hndt⟩
      intro hmem
      obtain ⟨w', hw', hfc⟩ := List.mem_map.mp hmem
      obtain ⟨g', hg', hw'eq⟩ := List.mem_filterMap.mp hw'
      refine hg ?_
      have : g.1 = g'.1 := by
        rw [← groupWildcard_from hw, ← hfc, groupWildcard_from hw'eq]
      rw [this]
      exact List.mem_map_of_mem _ hg'

theorem wildcard_sortKey_eq_from {a b : Wildcard} (h : a.sortKey = b.sortKey) :
    a.from_components = b.from_components := by
  rw [Wildcard.sortKey, Wildcard.sortKey] at h
  simp only [toLex_inj, Prod.mk.injEq] at h
  exact h.2

theorem sorted_wildcards_eq_of_perm : ∀ {l l' : List Wildcard}, l.Perm l' →
    List.Sorted wildcardKeyLe l → List.Sorted wildcardKeyLe l' →
    (l.map Wildcard.from_components).Nodup → l = l' := by
  intro l
  induction l with
  | nil =>
    intro l' hp _ _ _
    exact hp.nil_eq
  | cons a t ih =>
    intro l' hp hs hs' hnd
    cases l' with
    | nil => exact absurd hp.symm (by simp)
    | cons a' t' =>
      simp only [List.map_cons, List.nodup_cons] at hnd
      obtain ⟨hafc, hndt⟩ := hnd
      have haa : a = a' := by
        by_contra hne
        have ha : a ∈ a' :: t' := hp.mem_iff.mp (List.mem_cons_self _ _)
        have ha' : a' ∈ a :: t := hp.mem_iff.mpr (List.mem_cons_self _ _)
        have hat' : a ∈ t' := by
          rcases List.mem_cons.mp ha with h | h
          · exact absurd h hne
          · exact h
        have ha't : a' ∈ t := by
          rcases List.mem_cons.mp ha' with h | h
          · exact absurd h.symm hne
          · exact h
        have h1 : wildcardKeyLe a' a := List.rel_of_sorted_cons hs' a hat'
        have h2 : wildcardKeyLe a a' := List.rel_of_sorted_cons hs a' ha't
        have hkeys : a.sortKey = a'.sortKey := le_antisymm h2 h1
        exact hafc ((wildcard_sortKey_eq_from hkeys) ▸ List.mem_map_of_mem _ ha't)
      subst haa
      have htt : t.Perm t' := hp.cons_inv
      rw [ih htt hs.of_cons hs'.of_cons hndt]

/-- Without ties, `WildcardStore::build`'s result does not depend on the
hash maps' iteration order. -/
theorem build_iteration_order_immaterial {rs : List Redirect} {gs' : List FromGroup}
    (har : Arranged (groupCandidates rs).1 gs') (hnt : NoTies (groupCandidates rs).1) :
    buildFromGroups gs' (groupCandidates rs).2 = WildcardStore.build rs := by
  obtain ⟨mid, hpm, hf⟩ := har
  have hWF := groupCandidates_WF rs
  have hP : ∀ g ∈ mid, (g.2.map (·.1)).Nodup ∧
      ∀ sg ∈ g.2, ∀ sg' ∈ g.2, sg.1 ≠ sg'.1 → sg.2.length ≠ sg'.2.length := by
    intro g hg
    have hgs : g ∈ (groupCandidates rs).1 := hpm.mem_iff.mpr hg
    exact ⟨((hWF.2 g hgs).2).1, hnt g hgs⟩
  have hcomb := forall₂_groupWildcard_leftover hf hP
  have hWeq : gs'.filterMap groupWildcard = mid.filterMap groupWildcard :=
    filterMap_groupWildcard_forall₂ (hcomb.imp fun _ _ h => h.1)
  have hLperm : (gs'.flatMap groupLeftover).Perm (mid.flatMap groupLeftover) :=
    flatMap_groupLeftover_forall₂ (hcomb.imp fun _ _ h => h.2)
  have hWperm : (gs'.filterMap groupWildcard).Perm
      ((groupCandidates rs).1.filterMap groupWildcard) := by
    rw [hWeq]
    exact (hpm.filterMap _).symm
  have hkeysnd := filterMap_groupWildcard_keys_nodup hWF.1
  have hwild : List.insertionSort wildcardKeyLe (gs'.filterMap groupWildcard) =
      List.insertionSort wildcardKeyLe ((groupCandidates rs).1.filterMap groupWildcard) := by
    refine sorted_wildcards_eq_of_perm
      ((List.perm_insertionSort _ _).trans
        (hWperm.trans (List.perm_insertionSort _ _).symm))
      (List.sorted_insertionSort _ _) (List.sorted_insertionSort _ _) ?_
    exact (((List.perm_insertionSort wildcardKeyLe _).map _).nodup_iff).mpr
      ((hWperm.map _).nodup_iff.mpr hkeysnd)
  have hUperm : ((groupCandidates rs).2 ++ gs'.flatMap groupLeftover).Perm
      ((groupCandidates rs).2 ++ (groupCandidates rs).1.flatMap groupLeftover) :=
    List.Perm.append_left _ (hLperm.trans (hpm.flatMap_right _).symm)
  have hunm : List.insertionSort (· ≤ ·)
        ((groupCandidates rs).2 ++ gs'.flatMap groupLeftover) =
      List.insertionSort (· ≤ ·)
        ((groupCandidates rs).2 ++ (groupCandidates rs).1.flatMap groupLeftover) :=
    List.eq_of_perm_of_sorted
      ((List.perm_insertionSort _ _).trans
        (hUperm.trans (List.perm_insertionSort _ _).symm))
      (List.sorted_insertionSort _ _) (List.sorted_insertionSort _ _)
  show WildcardStore.mk _ _ = WildcardStore.mk _ _
  rw [WildcardStore.mk.injEq]
  exact ⟨hwild, hunm⟩

/-- C3 (amended): the compressed output is a function of the inputs together
with the grouping maps' iteration order, and whenever within every
`(from_prefix, from_suffix)` group no two sub-groups tie in member count,
it does not depend on the iteration order at all — any two runs on the same
release tree, alias list, flavor and prefix produce byte-identical text. -/
theorem compressed_output_iteration_independent (project : Project) (aliases : List Alias)
    (pre : Str) (gs' : List FromGroup)
    (har : Arranged
      (groupCandidates (projectRedirects project aliases (trimEndSlashes pre))).1 gs')
    (hnt : NoTies (groupCandidates (projectRedirects project aliases (trimEndSlashes pre))).1) :
    generateOutputArranged project aliases pre gs' =
      generateOutput project aliases .cloudflare pre := by
  simp only [generateOutputArranged, generateOutput]
  rw [build_iteration_order_immaterial har hnt]

/-- A release tree whose two versions produce a two-way sub-group size tie:
same `(from_prefix, from_suffix)` shape, structurally different `to`s. -/
def cexVd1 : ReleaseVersionData := ⟨"a1".toList, []⟩

def cexVd2 : ReleaseVersionData := ⟨"b2".toList, []⟩

def cexProject : Project :=
  ⟨none, [("1".toList, ⟨true, "1".toList, [("1".toList, cexVd1), ("2".toList, cexVd2)]⟩)]⟩

/-- The grouping-map content for `cexProject` in first-insertion order. -/
def cexGroups : List FromGroup :=
  (groupCandidates (projectRedirects cexProject [] (trimEndSlashes "p".toList))).1

/-- The same content with the one group's two sub-groups enumerated in the
opposite order — an equally valid hash-map iteration order. -/
def cexGroupsSwapped : List FromGroup :=
  match cexGroups with
  | [(fk, [s1, s2])] => [(fk, [s2, s1])]
  | gs => gs

/-- C3 counterexample: on `cexProject` the two iteration orders of the same
grouping-map content are both reachable runs, the canonical run equals
`generate_redirects`' output, and the two runs' output bytes differ — the
tie between equal-sized sub-groups is broken by `HashMap` iteration order,
which Rust randomizes per map, so byte-identical output across runs fails. -/
theorem compressed_output_depends_on_iteration_order :
    Arranged cexGroups cexGroupsSwapped ∧
      generateOutput cexProject [] .cloudflare "p".toList =
        generateOutputArranged cexProject [] "p".toList cexGroups ∧
      generateOutputArranged cexProject [] "p".toList cexGroups ≠
        generateOutputArranged cexProject [] "p".toList cexGroupsSwapped := by
  refine ⟨⟨cexGroups, List.Perm.refl _, by decide⟩, rfl, by decide⟩

/-- A release tree with no sub-group size ties (both versions share one
destination shape). -/
def witVd1 : ReleaseVersionData := ⟨"a1".toList, []⟩

def witVd2 : ReleaseVersionData := ⟨"a2".toList, []⟩

def witProject : Project :=
  ⟨none, [("1".toList, ⟨true, "1".toList, [("1".toList, witVd1), ("2".toList, witVd2)]⟩)]⟩

def witGroups : List FromGroup :=
  (groupCandidates (projectRedirects witProject [] (trimEndSlashes "p".toList))).1

theorem compressed_output_iteration_independent_witness :
    generateOutputArranged witProject [] "p".toList witGroups =
      generateOutput witProject [] RedirectFlavor.cloudflare "p".toList :=
  compressed_output_iteration_independent witProject [] "p".toList witGroups
    ⟨witGroups, List.Perm.refl _, by decide⟩ (by decide)
